import Mathlib

/-!
# Verification of the rag-backend ingestion/retrieval pipeline

Shallow embedding of `src/src/app.service.ts` and `src/src/app.controller.ts`
(akshitkathuria/rag-backend), together with a model of the FAISS vector-store
operations (`FaissStore.load` / `fromDocuments` / `addDocuments` / `save` /
`similaritySearch`) which are library code invoked by the service; those are
modelled from the specification's §4.3 contract.

Strings are embedded as Lean `String`s (lists of characters), JavaScript
numbers used as array indices/sizes as `Nat`/`Int`, embedding vectors as lists
of integers (exact stand-ins for the floating-point coordinates; only
comparisons and counts matter to the properties proved here), and promise
rejection / thrown exceptions as `Except`.
-/

set_option maxHeartbeats 1000000
set_option maxRecDepth 4000

namespace Rag

/-! ## Data model -/

/-- A chunk as produced by `parseAndChunkFile`: `{text, source}`
(`app.service.ts:74-77`). Also the shape of the retrieval results returned by
`retrieveRelevantChunks` (`app.service.ts:117-120`). -/
structure Chunk where
  text : String
  source : String
deriving DecidableEq, Repr

abbrev RetrievalResult := Chunk

/-- Document metadata: the service always stores `{ source }`
(`app.service.ts:98`), but `retrieveRelevantChunks` reads it defensively with
`doc.metadata?.source || ''` (`app.service.ts:119`), so both the metadata
object and its `source` field are modelled as optional. -/
structure DocMeta where
  source : Option String
deriving DecidableEq, Repr

/-- A Langchain `Document`: `pageContent` plus optional metadata. -/
structure Document where
  pageContent : String
  metadata : Option DocMeta
deriving DecidableEq, Repr

/-- Modelled from the spec: an `EmbeddingVector` is a fixed-dimension ordered
sequence of numbers (exact integers stand in for the floats). -/
abbrev EmbeddingVector := List Int

/-- An entry of the vector index: `{vector, chunk-document}` (spec §3
`IndexedEntry`). -/
structure IndexedEntry where
  vector : EmbeddingVector
  doc : Document
deriving DecidableEq, Repr

/-- The in-memory FAISS store: an ordered collection of indexed entries
(spec §3 `VectorIndex`). -/
structure VectorIndex where
  entries : List IndexedEntry
deriving DecidableEq, Repr

/-- Modelled from the spec: an embedder maps text to a vector of a fixed
dimension `dim` (§4.2); `charWeight` makes distinct embedder configurations
distinguishable.  The concrete vector values are a deterministic stand-in for
the external service's output. -/
structure Embedder where
  dim : Nat
  charWeight : Int
deriving DecidableEq, Repr

/-- Modelled from the spec: `embed(text)` returns one vector of dimension
`E.dim`, a deterministic function of the text. -/
def Embedder.embed (E : Embedder) (s : String) : EmbeddingVector :=
  (List.range E.dim).map fun i : Nat =>
    E.charWeight * ((s.data.map Char.toNat).sum : Int) + (i : Int)

/-- `new OpenAIEmbeddings()` (`app.service.ts:87` and `app.service.ts:109`):
the default OpenAI embedding model (1536 dimensions). -/
def openAIEmbeddings : Embedder := ⟨1536, 1⟩

/-- `new HuggingFaceInferenceEmbeddings({model: "sentence-transformers/all-MiniLM-L6-v2"})`
(`app.controller.ts:15-18`): a 384-dimension model. -/
def huggingFaceInferenceEmbeddings : Embedder := ⟨384, 2⟩

/-- The embedder constructed on the ingestion path (`app.service.ts:87`). -/
def ingestionEmbedder : Embedder := openAIEmbeddings

/-- The embedder constructed on the query path (`app.service.ts:109`). -/
def queryEmbedder : Embedder := openAIEmbeddings

/-! ## Persisted index storage and load/save

`FaissStore.load` / `FaissStore.save` act on the durable resource at
`VECTOR_INDEX_PATH`; they are library code, modelled from the spec §4.3/§6:
the storage either holds a serialized index, holds unreadable bytes
(corrupt), or is absent. -/

/-- The error kinds with which `FaissStore.load` can reject (spec §4.3). -/
inductive LoadError where
  | indexNotFound
  | indexCorrupt
deriving DecidableEq, Repr

/-- Result of attempting to load the persisted index. -/
inductive LoadResult where
  | loaded (store : VectorIndex)
  | failed (e : LoadError)
deriving DecidableEq, Repr

/-- The state of the durable storage location (spec §6): absent, unreadable,
or holding a serialized entry list. -/
inductive Storage where
  | absent
  | corrupt
  | stored (entries : List IndexedEntry)
deriving DecidableEq, Repr

/-- Modelled from the spec: `FaissStore.load(path, embeddings)` fails with
`IndexNotFound` when the persisted resource is absent, `IndexCorrupt` when it
is unreadable, and otherwise reconstructs the saved index (§4.3). -/
def load (st : Storage) (_embeddings : Embedder) : LoadResult :=
  match st with
  | .absent => .failed .indexNotFound
  | .corrupt => .failed .indexCorrupt
  | .stored es => .loaded ⟨es⟩

/-- Modelled from the spec: `save(path)` persists the full index state (§4.3).
The storage afterwards holds exactly the index's entries. -/
def saveIndex (idx : VectorIndex) : Storage := .stored idx.entries

/-- Modelled from the spec: `FaissStore.fromDocuments(docs, embeddings)`
builds an index embedding each document's `pageContent`, order-preserving
(§4.2-§4.3).  The service only calls it with `[]` (`app.service.ts:93`). -/
def fromDocuments (docs : List Document) (E : Embedder) : VectorIndex :=
  ⟨docs.map fun d => ⟨E.embed d.pageContent, d⟩⟩

/-- Modelled from the spec: `addDocuments(docs)` embeds the documents and
appends the entries without reindexing (§4.3). -/
def addDocuments (idx : VectorIndex) (docs : List Document) (E : Embedder) : VectorIndex :=
  ⟨idx.entries ++ docs.map fun d => ⟨E.embed d.pageContent, d⟩⟩

/-! ## Similarity search (modelled from the spec) -/

/-- Inner-product similarity between two vectors (spec §4.3: "cosine or
inner-product, consistent with the embedder's geometry"). -/
def dotProduct : EmbeddingVector → EmbeddingVector → Int
  | [], _ => 0
  | _, [] => 0
  | a :: as, b :: bs => a * b + dotProduct as bs

/-- An index entry paired with its similarity score for a given query. -/
abbrev Scored := IndexedEntry × Int

/-- Insert into a descending-by-score list, placing the new element before the
first element whose score is less than or equal to its own (so that, in
`sortDesc`, earlier-added entries rank first on ties, spec §4.3). -/
def insertDesc (a : Scored) : List Scored → List Scored
  | [] => [a]
  | b :: l => if b.2 ≤ a.2 then a :: b :: l else b :: insertDesc a l

/-- Stable sort by descending score. -/
def sortDesc : List Scored → List Scored
  | [] => []
  | a :: l => insertDesc a (sortDesc l)

/-- Modelled from the spec: `search(queryVector, k)` scores every entry,
orders by descending similarity (ties by insertion order) and returns up to
`k` of them (§4.3). -/
def search (idx : VectorIndex) (q : EmbeddingVector) (k : Nat) : List Scored :=
  (sortDesc (idx.entries.map fun e => (e, dotProduct e.vector q))).take k

/-- Modelled from the spec: `similaritySearch(query, k)` embeds the query with
the store's embedder and returns the `k` most similar documents, dropping the
scores (§4.4). -/
def similaritySearch (idx : VectorIndex) (query : String) (k : Nat) (E : Embedder) :
    List Document :=
  (search idx (E.embed query) k).map fun s => s.1.doc

/-! ## Chunking (`parseAndChunkFile`, `app.service.ts:70-79`)

The loop `for (let i = 0; i < text.length; i += chunkSize)
chunks.push({text: text.slice(i, i + chunkSize), source})` is embedded twice:

* `chunkTextGo`/`chunkText`: the loop for a positive (`Nat`) chunk size, by
  structural recursion on a fuel that the loop provably never exhausts
  (each iteration consumes at least one character);
* `chunkLoopJS`: the raw loop with a signed chunk size and JavaScript `slice`
  clamping semantics, with explicit fuel, used to settle what happens for a
  non-positive chunk size.  `chunkLoopJS_eq_chunkText` below ties the two
  embeddings together on positive sizes. -/

/-- The chunking loop body, fuel-indexed.  With `t.length ≤ fuel` and a
positive chunk size the fuel is never exhausted. -/
def chunkTextGo (C : Nat) : Nat → List Char → List (List Char)
  | 0, _ => []
  | _ + 1, [] => []
  | fuel + 1, a :: rest => (a :: rest).take C :: chunkTextGo C fuel ((a :: rest).drop C)

/-- `text.slice(i, i + C)` pieces of `text`, in order: the chunking loop of
`parseAndChunkFile` for a positive chunk size. -/
def chunkText (C : Nat) (t : List Char) : List (List Char) :=
  chunkTextGo C t.length t

/-- The chunking loop of `parseAndChunkFile` (`app.service.ts:72-78`),
parameterized over the chunk size: each slice is tagged with the source
file name. -/
def chunkLoop (C : Nat) (text source : String) : List Chunk :=
  (chunkText C text.data).map fun s => ⟨⟨s⟩, source⟩

/-- The hardcoded chunk size: `const chunkSize = 2000` (`app.service.ts:71`). -/
def chunkSizeConst : Nat := 2000

/-- The chunks produced by `parseAndChunkFile` once the file's text has been
extracted: the loop at `app.service.ts:72-78` with the hardcoded size. -/
def parseAndChunkFileChunks (text source : String) : List Chunk :=
  chunkLoop chunkSizeConst text source

/-- JavaScript `slice` index clamping: a negative index counts from the end
of the string, and indices are clamped to `[0, length]`. -/
def jsClamp (len : Nat) (i : Int) : Nat :=
  if i < 0 then (max ((len : Int) + i) 0).toNat else min i.toNat len

/-- JavaScript `text.slice(a, b)`. -/
def jsSlice (t : List Char) (a b : Int) : List Char :=
  (t.drop (jsClamp t.length a)).take (jsClamp t.length b - jsClamp t.length a)

/-- The raw chunking loop with JavaScript semantics: index `i` starts at `0`
and is advanced by the (possibly non-positive, signed) chunk size `C`; each
iteration pushes `text.slice(i, i + C)`.  `none` means the fuel ran out with
the loop still running; the loop body contains no validation and no throw, so
no error outcome exists. -/
def chunkLoopJS : Nat → Int → List Char → Int → List (List Char) → Option (List (List Char))
  | 0, _, _, _, _ => none
  | fuel + 1, C, t, i, acc =>
    if i < (t.length : Int) then
      chunkLoopJS fuel C t (i + C) (acc ++ [jsSlice t i (i + C)])
    else
      some acc

/-- Concatenation of the chunk texts, in output order. -/
def concatTexts (l : List Chunk) : String :=
  l.foldr (fun c acc => c.text ++ acc) ""

/-! ## Service layer (`app.service.ts`) -/

/-- Errors with which the external collaborators' calls can reject
(spec §7). -/
inductive SvcError where
  | embeddingServiceError
  | generationServiceError
deriving DecidableEq, Repr

/-- `chunks.map(chunk => new Document({pageContent: chunk.text, metadata:
{source: chunk.source}}))` (`app.service.ts:96-99`). -/
def chunksToDocs (chunks : List Chunk) : List Document :=
  chunks.map fun chunk => ⟨chunk.text, some ⟨some chunk.source⟩⟩

/-- `embedAndStoreChunks` (`app.service.ts:86-103`): try to load the
persisted index, on ANY load failure fall back to a fresh empty store
(bare `catch`, `app.service.ts:92-94`), convert the chunks to documents,
add them, save, and return `true`.  The persisted storage is threaded
explicitly; the result carries the returned value and the storage after
the `save`. -/
def embedAndStoreChunks (st : Storage) (chunks : List Chunk) :
    Except SvcError (Bool × Storage) :=
  let embeddings := openAIEmbeddings
  let vectorStore : VectorIndex :=
    match load st embeddings with
    | .loaded vs => vs
    | .failed _ => fromDocuments [] embeddings
  let docs := chunksToDocs chunks
  let vectorStore2 := addDocuments vectorStore docs embeddings
  .ok (true, saveIndex vectorStore2)

/-- The persisted storage after a call to `embedAndStoreChunks`. -/
def ingestResult (st : Storage) (chunks : List Chunk) : Storage :=
  match embedAndStoreChunks st chunks with
  | .ok (_, st2) => st2
  | .error _ => st

/-- `doc.metadata?.source || ''` (`app.service.ts:119`): optional chaining
yields `undefined` when the metadata object or its `source` field is absent,
and `||` replaces both `undefined` and the falsy empty string by `''`. -/
def projSource (m : Option DocMeta) : String :=
  match m with
  | none => ""
  | some md =>
    match md.source with
    | none => ""
    | some s => if s = "" then "" else s

/-- `retrieveRelevantChunks` (`app.service.ts:108-121`): try to load the
persisted index and on ANY load failure return `[]` (bare `catch`,
`app.service.ts:113-115`); otherwise run `similaritySearch(query, 4)` and
project each document to `{text, source}`. -/
def retrieveRelevantChunks (st : Storage) (query : String) :
    Except SvcError (List RetrievalResult) :=
  let embeddings := openAIEmbeddings
  match load st embeddings with
  | .failed _ => .ok []
  | .loaded vectorStore =>
    .ok ((similaritySearch vectorStore query 4 embeddings).map fun doc =>
      ⟨doc.pageContent, projSource doc.metadata⟩)

/-- The documents held by the persisted index, as the query path would load
them (empty when the load fails). -/
def storedDocuments (st : Storage) : List Document :=
  match load st openAIEmbeddings with
  | .loaded vs => vs.entries.map fun e => e.doc
  | .failed _ => []

/-- Answer plus the context list used to produce it (spec §3
`AugmentedAnswer`; `app.service.ts:136-139`). -/
structure AugmentedAnswer where
  answer : String
  contexts : List RetrievalResult
deriving DecidableEq, Repr

/-- `` `Source [${i+1}] (${ctx.source}):\n${ctx.text}` ``
(`app.service.ts:128`). -/
def renderContext (i : Nat) (ctx : RetrievalResult) : String :=
  "Source [" ++ toString (i + 1) ++ "] (" ++ ctx.source ++ "):\n" ++ ctx.text

/-- `contexts.map((ctx, i) => ...)`: render each context with its index,
starting from `i`. -/
def renderContexts : Nat → List RetrievalResult → List String
  | _, [] => []
  | i, c :: cs => renderContext i c :: renderContexts (i + 1) cs

/-- JavaScript `Array.join(sep)`. -/
def joinSep (sep : String) : List String → String
  | [] => ""
  | [x] => x
  | x :: y :: rest => x ++ sep ++ joinSep sep (y :: rest)

/-- The `fullPrompt` built by `generateAnswerWithContext`
(`app.service.ts:128-129`). -/
def buildFullPrompt (prompt : String) (contexts : List RetrievalResult) : String :=
  let contextText := joinSep "\n\n" (renderContexts 0 contexts)
  "You are an AI assistant. Use the following context to answer the user's question. Cite the sources in your answer.\n\nContext:\n"
    ++ contextText ++ "\n\nQuestion: " ++ prompt

/-- `generateAnswerWithContext` (`app.service.ts:126-140`): build the
augmented prompt, invoke the generation model on it (the external model is
passed in as a function), and return its output together with the input
contexts.  -/
def generateAnswerWithContext (modelInvoke : String → String) (prompt : String)
    (contexts : List RetrievalResult) : AugmentedAnswer :=
  ⟨modelInvoke (buildFullPrompt prompt contexts), contexts⟩

/-! ## Controller layer (`app.controller.ts`) -/

/-- `uploadFile` (`app.controller.ts:12-21`), after the file has been saved
and its text extracted: chunk the text, construct the HuggingFace embeddings
object (which is never passed on — `embedAndStoreChunks` builds its own
OpenAI embedder), and store the chunks. -/
def uploadFile (st : Storage) (text source : String) : Except SvcError (Bool × Storage) :=
  let chunks := parseAndChunkFileChunks text source
  let _embeddings := huggingFaceInferenceEmbeddings
  embedAndStoreChunks st chunks

/-! ## Concurrent ingestion model (spec §5)

Two ingestion calls `A` and `B` run `embedAndStoreChunks` concurrently.  Each
call interacts with the durable storage twice: the `FaissStore.load` (a read)
and the `save` (a write); the embedding and `addDocuments` work in between is
local.  A schedule is the order in which the two calls' storage operations
are interleaved; `await` points in the JavaScript code allow any such
interleaving, as the code takes no lock. -/

/-- The two concurrent ingestion calls. -/
inductive Tid where
  | A
  | B
deriving DecidableEq, Repr

/-- Progress of one ingestion call: not yet loaded, holding its in-memory
store (after the load / fresh-create), or finished (after its save). -/
inductive ThreadState where
  | start
  | loadedStore (vs : VectorIndex)
  | finished
deriving DecidableEq, Repr

/-- Storage plus the two calls' local states. -/
structure ConcState where
  storage : Storage
  tA : ThreadState
  tB : ThreadState
deriving DecidableEq, Repr

/-- One storage interaction of an ingestion call processing `chunks`,
mirroring `embedAndStoreChunks` exactly: the first step performs the
`load`-with-fallback (`app.service.ts:90-94`), the second performs
`addDocuments` + `save` (`app.service.ts:100-101`). -/
def stepThread (chunks : List Chunk) (ts : ThreadState) (st : Storage) :
    ThreadState × Storage :=
  match ts with
  | .start =>
    (.loadedStore (match load st openAIEmbeddings with
      | .loaded vs => vs
      | .failed _ => fromDocuments [] openAIEmbeddings), st)
  | .loadedStore vs =>
    (.finished, saveIndex (addDocuments vs (chunksToDocs chunks) openAIEmbeddings))
  | .finished => (.finished, st)

/-- Run a schedule of interleaved storage operations of the two ingestion
calls `A` (processing `chA`) and `B` (processing `chB`). -/
def runSched (chA chB : List Chunk) : List Tid → ConcState → ConcState
  | [], s => s
  | t :: rest, s =>
    runSched chA chB rest
      (match t with
       | .A =>
         let p := stepThread chA s.tA s.storage
         ⟨p.2, p.1, s.tB⟩
       | .B =>
         let p := stepThread chB s.tB s.storage
         ⟨p.2, s.tA, p.1⟩)

/-- The entries held in the durable storage. -/
def entriesOfStorage : Storage → List IndexedEntry
  | .stored es => es
  | _ => []

/-- All vectors in the persisted index have the ingestion embedder's
dimension (spec §3: "all vectors in one index must share the embedder's
dimension"). -/
def dimInvariant (st : Storage) : Prop :=
  ∀ e ∈ entriesOfStorage st, e.vector.length = openAIEmbeddings.dim

/-- The ingestion call used as caller `A` in the concurrency scenario. -/
def chunksDocA : List Chunk := [⟨"docA", "a.txt"⟩]

/-- The ingestion call used as caller `B` in the concurrency scenario. -/
def chunksDocB : List Chunk := [⟨"docB", "b.txt"⟩]

/-- `big` contains `small` as a contiguous substring. -/
def containsStr (big small : String) : Prop :=
  ∃ pre suf : List Char, big.data = pre ++ small.data ++ suf

/-! ## Basic string lemmas -/

theorem strData_append (a b : String) : (a ++ b).data = a.data ++ b.data := by
  cases a
  cases b
  rfl

theorem strEq_of_data {a b : String} (h : a.data = b.data) : a = b := by
  cases a
  cases b
  congr 1

theorem strAppend_assoc (a b c : String) : a ++ b ++ c = a ++ (b ++ c) := by
  apply strEq_of_data
  simp [strData_append]

/-! ## Chunking lemmas (towards C1 and C4) -/

theorem chunkTextGo_nil (C fuel : Nat) : chunkTextGo C fuel [] = [] := by
  cases fuel <;> rfl

theorem chunkTextGo_fuel_flatten (C : Nat) (hC : 0 < C) :
    ∀ (fuel : Nat) (t : List Char), t.length ≤ fuel →
      (chunkTextGo C fuel t).flatten = t := by
  intro fuel
  induction fuel with
  | zero =>
    intro t ht
    have : t = [] := List.eq_nil_of_length_eq_zero (Nat.le_zero.mp ht)
    subst this
    rfl
  | succ n ih =>
    intro t ht
    match t with
    | [] => rfl
    | a :: rest =>
      simp only [List.length_cons] at ht
      simp only [chunkTextGo, List.flatten_cons]
      rw [ih ((a :: rest).drop C)
        (by simp only [List.length_drop, List.length_cons]; omega)]
      exact List.take_append_drop C (a :: rest)

theorem chunkText_flatten (C : Nat) (hC : 0 < C) (t : List Char) :
    (chunkText C t).flatten = t :=
  chunkTextGo_fuel_flatten C hC t.length t le_rfl

/-- The ceiling-division recurrence used by the chunk-count proof. -/
theorem ceilDiv_step (C len : Nat) (hC : 0 < C) (hlen : 0 < len) :
    (len + C - 1) / C = (len - C + C - 1) / C + 1 := by
  rcases le_or_lt len C with hle | hlt
  · have h0 : len - C = 0 := by omega
    rw [h0]
    have h1 : len + C - 1 = (len - 1) + C := by omega
    have h2 : (0 : Nat) + C - 1 = C - 1 := by omega
    rw [h1, h2, Nat.add_div_right _ hC, Nat.div_eq_of_lt (by omega),
      Nat.div_eq_of_lt (by omega)]
  · have h1 : len + C - 1 = (len - C + C - 1) + C := by omega
    rw [h1, Nat.add_div_right _ hC]

theorem chunkTextGo_fuel_length (C : Nat) (hC : 0 < C) :
    ∀ (fuel : Nat) (t : List Char), t.length ≤ fuel →
      (chunkTextGo C fuel t).length = (t.length + C - 1) / C := by
  intro fuel
  induction fuel with
  | zero =>
    intro t ht
    have : t = [] := List.eq_nil_of_length_eq_zero (Nat.le_zero.mp ht)
    subst this
    simp [chunkTextGo, Nat.div_eq_of_lt (by omega : C - 1 < C)]
  | succ n ih =>
    intro t ht
    match t with
    | [] => simp [chunkTextGo, Nat.div_eq_of_lt (by omega : C - 1 < C)]
    | a :: rest =>
      simp only [List.length_cons] at ht
      have hfuel2 : ((a :: rest).drop C).length ≤ n := by
        simp only [List.length_drop, List.length_cons]
        omega
      simp only [chunkTextGo, List.length_cons]
      rw [ih ((a :: rest).drop C) hfuel2, List.length_drop, List.length_cons,
        ceilDiv_step C (rest.length + 1) hC (by omega)]

theorem chunkText_length (C : Nat) (hC : 0 < C) (t : List Char) :
    (chunkText C t).length = (t.length + C - 1) / C :=
  chunkTextGo_fuel_length C hC t.length t le_rfl

theorem chunkTextGo_ne_nil (C fuel : Nat) (t : List Char) (ht : t ≠ [])
    (hfuel : t.length ≤ fuel) : chunkTextGo C fuel t ≠ [] := by
  match t with
  | [] => exact absurd rfl ht
  | a :: rest =>
    match fuel with
    | 0 => simp at hfuel
    | n + 1 => simp [chunkTextGo]

theorem chunkTextGo_fuel_dropLast (C : Nat) (hC : 0 < C) :
    ∀ (fuel : Nat) (t : List Char), t.length ≤ fuel →
      ∀ c ∈ (chunkTextGo C fuel t).dropLast, c.length = C := by
  intro fuel
  induction fuel with
  | zero =>
    intro t ht
    have : t = [] := List.eq_nil_of_length_eq_zero (Nat.le_zero.mp ht)
    subst this
    simp [chunkTextGo]
  | succ n ih =>
    intro t ht
    match t with
    | [] => simp [chunkTextGo]
    | a :: rest =>
      simp only [List.length_cons] at ht
      by_cases hd : (a :: rest).drop C = []
      · simp [chunkTextGo, hd, chunkTextGo_nil]
      · have hfuel2 : ((a :: rest).drop C).length ≤ n := by
          simp only [List.length_drop, List.length_cons]
          omega
        have hne : chunkTextGo C n ((a :: rest).drop C) ≠ [] :=
          chunkTextGo_ne_nil C n _ hd hfuel2
        obtain ⟨b, l2, hbl⟩ := List.exists_cons_of_ne_nil hne
        have hlt : C < (a :: rest).length := by
          by_contra hcon
          exact hd (List.drop_eq_nil_of_le (by omega))
        simp only [List.length_cons] at hlt
        intro c hc
        simp only [chunkTextGo, hbl, List.dropLast_cons₂, List.mem_cons] at hc
        rcases hc with hc | hc
        · subst hc
          simp only [List.length_take, List.length_cons]
          omega
        · have := ih ((a :: rest).drop C) hfuel2 c
          rw [hbl] at this
          exact this hc

theorem chunkText_dropLast (C : Nat) (hC : 0 < C) (t : List Char) :
    ∀ c ∈ (chunkText C t).dropLast, c.length = C :=
  chunkTextGo_fuel_dropLast C hC t.length t le_rfl

theorem concatTexts_data (l : List Chunk) :
    (concatTexts l).data = (l.map fun c => c.text.data).flatten := by
  induction l with
  | nil => rfl
  | cons c l ih =>
    simp only [concatTexts, List.foldr_cons, List.map_cons, List.flatten_cons,
      strData_append]
    exact congrArg _ ih

/-- C1: for every text and positive chunk size `C`, the chunking loop of
`parseAndChunkFile` yields exactly `⌈L/C⌉ = (L + C - 1) / C` chunks, every
chunk except possibly the last has text of length exactly `C`, the
concatenation of the chunk texts in order is the original text, and the empty
text yields zero chunks. -/
theorem claim_C1 (C : Nat) (hC : 0 < C) (text source : String) :
    (chunkLoop C text source).length = (text.length + C - 1) / C ∧
    (∀ c ∈ (chunkLoop C text source).dropLast, c.text.length = C) ∧
    concatTexts (chunkLoop C text source) = text ∧
    chunkLoop C "" source = [] := by
  obtain ⟨data⟩ := text
  refine ⟨?_, ?_, ?_, rfl⟩
  · simp only [chunkLoop, List.length_map]
    exact chunkText_length C hC data
  · intro c hc
    rw [chunkLoop, ← List.map_dropLast] at hc
    obtain ⟨s, hs, rfl⟩ := List.mem_map.mp hc
    exact chunkText_dropLast C hC data s hs
  · apply strEq_of_data
    rw [concatTexts_data]
    simp only [chunkLoop, List.map_map]
    have : ((fun c : Chunk => c.text.data) ∘ fun s => (⟨⟨s⟩, source⟩ : Chunk)) = id := by
      funext s
      rfl
    rw [this, List.map_id]
    exact chunkText_flatten C hC data

/-- Witness for C1: chunk size 4 on `"AAAA BBBB"` (the spec §8 scenario)
yields 3 chunks whose concatenation is the input, and the empty text yields
no chunks. -/
theorem claim_C1_witness :
    (chunkLoop 4 "AAAA BBBB" "doc1").length = 3 ∧
    concatTexts (chunkLoop 4 "AAAA BBBB" "doc1") = "AAAA BBBB" ∧
    chunkLoop 4 "" "doc1" = [] := by
  refine ⟨?_, (claim_C1 4 (by decide) "AAAA BBBB" "doc1").2.2.1,
    (claim_C1 4 (by decide) "AAAA BBBB" "doc1").2.2.2⟩
  rw [(claim_C1 4 (by decide) "AAAA BBBB" "doc1").1]
  decide

/-! ## Non-positive chunk size (towards C4) -/

theorem chunkLoopJS_nonpos_diverges :
    ∀ (fuel : Nat) (C : Int) (t : List Char) (i : Int) (acc : List (List Char)),
      C ≤ 0 → i ≤ 0 → t ≠ [] → chunkLoopJS fuel C t i acc = none := by
  intro fuel
  induction fuel with
  | zero =>
    intro C t i acc _ _ _
    rfl
  | succ n ih =>
    intro C t i acc hC hi ht
    have hlen : 0 < t.length := List.length_pos.mpr ht
    simp only [chunkLoopJS]
    rw [if_pos (by omega)]
    exact ih C t (i + C) _ hC (by omega) ht

/-- C4 counterexample: with chunk size `0` on the one-character text `"a"`,
the chunking loop is still running after 200 iterations and no error of any
kind has been produced — the loop body contains no validation and its outcome
type has no error case, so the claimed `InvalidConfiguration` failure does
not exist, and the loop does not terminate either. -/
theorem claim_C4_counterexample :
    chunkLoopJS 200 0 ['a'] 0 [] = none := by
  decide

/-- C4 (amended): the chunk size is the hardcoded positive constant `2000`,
so a non-positive size can never be configured; the loop itself performs no
validation and produces no `InvalidConfiguration` error — for any
non-positive size and non-empty text it simply never terminates (for every
fuel bound it is still running). -/
theorem claim_C4 :
    chunkSizeConst = 2000 ∧
    (∀ text source, parseAndChunkFileChunks text source = chunkLoop 2000 text source) ∧
    (∀ (fuel : Nat) (C : Int) (t : List Char) (acc : List (List Char)),
      C ≤ 0 → t ≠ [] → chunkLoopJS fuel C t 0 acc = none) :=
  ⟨rfl, fun _ _ => rfl, fun fuel C t acc hC ht =>
    chunkLoopJS_nonpos_diverges fuel C t 0 acc hC le_rfl ht⟩

/-- Witness for C4 at chunk size `-2` on `"ab"` with fuel 7. -/
theorem claim_C4_witness :
    chunkLoopJS 7 (-2) ['a', 'b'] 0 [] = none :=
  claim_C4.2.2 7 (-2) ['a', 'b'] [] (by decide) (by decide)

/-! ## Bridge: the raw JS loop agrees with `chunkText` on positive sizes -/

theorem chunkTextGo_fuel_irrel (C : Nat) (hC : 0 < C) :
    ∀ (f1 f2 : Nat) (t : List Char), t.length ≤ f1 → t.length ≤ f2 →
      chunkTextGo C f1 t = chunkTextGo C f2 t := by
  intro f1
  induction f1 with
  | zero =>
    intro f2 t h1 _
    have : t = [] := List.eq_nil_of_length_eq_zero (Nat.le_zero.mp h1)
    subst this
    rw [chunkTextGo_nil, chunkTextGo_nil]
  | succ n ih =>
    intro f2 t h1 h2
    match t with
    | [] => rw [chunkTextGo_nil, chunkTextGo_nil]
    | a :: rest =>
      match f2 with
      | 0 => simp at h2
      | m + 1 =>
        simp only [List.length_cons] at h1 h2
        simp only [chunkTextGo]
        congr 1
        exact ih m ((a :: rest).drop C)
          (by simp only [List.length_drop, List.length_cons]; omega)
          (by simp only [List.length_drop, List.length_cons]; omega)

theorem chunkText_cons_of_ne (C : Nat) (hC : 0 < C) (l : List Char) (hl : l ≠ []) :
    chunkText C l = l.take C :: chunkText C (l.drop C) := by
  obtain ⟨a, rest, rfl⟩ := List.exists_cons_of_ne_nil hl
  show chunkTextGo C (a :: rest).length (a :: rest) = _
  simp only [List.length_cons, chunkTextGo]
  congr 1
  exact chunkTextGo_fuel_irrel C hC rest.length ((a :: rest).drop C).length _
    (by simp only [List.length_drop, List.length_cons]; omega) le_rfl

theorem jsSlice_nonneg (t : List Char) (i C : Nat) (hi : i ≤ t.length) :
    jsSlice t (i : Int) ((i + C : Nat) : Int) = (t.drop i).take C := by
  unfold jsSlice jsClamp
  rw [if_neg (by omega), if_neg (by omega), Int.toNat_ofNat, Int.toNat_ofNat,
    Nat.min_eq_left hi]
  refine List.take_eq_take.mpr ?_
  simp only [List.length_drop]
  omega

theorem chunkLoopJS_pos_run (C : Nat) (hC : 0 < C) :
    ∀ (m i : Nat) (t : List Char) (acc : List (List Char)), t.length ≤ m + i →
      chunkLoopJS (m + 1) (C : Int) t (i : Int) acc
        = some (acc ++ chunkText C (t.drop i)) := by
  intro m
  induction m with
  | zero =>
    intro i t acc ht
    rw [show chunkLoopJS (0 + 1) (C : Int) t (i : Int) acc
        = if (i : Int) < (t.length : Int) then
            chunkLoopJS 0 (C : Int) t ((i : Int) + (C : Int))
              (acc ++ [jsSlice t (i : Int) ((i : Int) + (C : Int))])
          else some acc from rfl]
    rw [if_neg (by omega), List.drop_eq_nil_of_le (by omega)]
    rw [show chunkText C [] = [] from rfl]
    simp
  | succ n ih =>
    intro i t acc ht
    rw [show chunkLoopJS (n + 1 + 1) (C : Int) t (i : Int) acc
        = if (i : Int) < (t.length : Int) then
            chunkLoopJS (n + 1) (C : Int) t ((i : Int) + (C : Int))
              (acc ++ [jsSlice t (i : Int) ((i : Int) + (C : Int))])
          else some acc from rfl]
    by_cases hi : i < t.length
    · rw [if_pos (by omega)]
      have hcast : (i : Int) + (C : Int) = ((i + C : Nat) : Int) := by push_cast; ring
      rw [hcast, ih (i + C) t (acc ++ [jsSlice t (i : Int) ((i + C : Nat) : Int)])
        (by omega)]
      rw [jsSlice_nonneg t i C (by omega)]
      rw [chunkText_cons_of_ne C hC (t.drop i) (by
        intro hnil
        rw [List.drop_eq_nil_iff] at hnil
        omega)]
      rw [List.drop_drop]
      simp [List.append_assoc]
    · rw [if_neg (by omega), List.drop_eq_nil_of_le (by omega)]
      rw [show chunkText C [] = [] from rfl]
      simp

/-- For a positive chunk size the raw JavaScript loop terminates (with fuel
`length + 1`) and returns exactly the chunks of `chunkText`: the two
embeddings of the chunking loop agree. -/
theorem chunkLoopJS_eq_chunkText (C : Nat) (hC : 0 < C) (t : List Char) :
    chunkLoopJS (t.length + 1) (C : Int) t 0 [] = some (chunkText C t) := by
  have h := chunkLoopJS_pos_run C hC t.length 0 t [] (by omega)
  simpa using h

/-! ## Sorting lemmas (towards C5, C6, C10) -/

theorem length_insertDesc (a : Scored) (l : List Scored) :
    (insertDesc a l).length = l.length + 1 := by
  induction l with
  | nil => rfl
  | cons b l ih =>
    simp only [insertDesc]
    split
    · simp
    · simp [ih]

theorem length_sortDesc (l : List Scored) : (sortDesc l).length = l.length := by
  induction l with
  | nil => rfl
  | cons a l ih => simp [sortDesc, length_insertDesc, ih]

theorem mem_insertDesc {x a : Scored} {l : List Scored} :
    x ∈ insertDesc a l ↔ x = a ∨ x ∈ l := by
  induction l with
  | nil => simp [insertDesc]
  | cons b l ih =>
    simp only [insertDesc]
    split
    · simp only [List.mem_cons]
    · simp only [List.mem_cons, ih]
      tauto

theorem mem_sortDesc {x : Scored} {l : List Scored} : x ∈ sortDesc l ↔ x ∈ l := by
  induction l with
  | nil => simp [sortDesc]
  | cons a l ih => simp [sortDesc, mem_insertDesc, ih]

theorem pairwise_insertDesc {a : Scored} {l : List Scored}
    (h : l.Pairwise (fun p r => r.2 ≤ p.2)) :
    (insertDesc a l).Pairwise (fun p r => r.2 ≤ p.2) := by
  induction l with
  | nil => simp [insertDesc]
  | cons b l ih =>
    rw [List.pairwise_cons] at h
    obtain ⟨hb, hl⟩ := h
    simp only [insertDesc]
    by_cases hba : b.2 ≤ a.2
    · rw [if_pos hba]
      refine List.Pairwise.cons ?_ (List.Pairwise.cons hb hl)
      intro x hx
      rcases List.mem_cons.mp hx with rfl | hx
      · exact hba
      · exact le_trans (hb x hx) hba
    · rw [if_neg hba]
      refine List.Pairwise.cons ?_ (ih hl)
      intro x hx
      rcases mem_insertDesc.mp hx with rfl | hx
      · exact le_of_lt (lt_of_not_le hba)
      · exact hb x hx

theorem pairwise_sortDesc (l : List Scored) :
    (sortDesc l).Pairwise (fun p r => r.2 ≤ p.2) := by
  induction l with
  | nil => simp [sortDesc]
  | cons a l ih =>
    simp only [sortDesc]
    exact pairwise_insertDesc ih

theorem mem_search {s : Scored} {idx : VectorIndex} {q : EmbeddingVector} {k : Nat}
    (h : s ∈ search idx q k) : s.1 ∈ idx.entries := by
  have h2 := List.take_subset _ _ h
  rw [mem_sortDesc] at h2
  obtain ⟨e, he, rfl⟩ := List.mem_map.mp h2
  exact he

/-- C5 (spec-modelled search): for every query vector and every `k`, `search`
on an index with `N` entries returns `min N k` results ordered by descending
similarity score; on an empty index it returns the empty sequence, and with
`N < k` it returns exactly `N` results. -/
theorem claim_C5 (idx : VectorIndex) (q : EmbeddingVector) (k : Nat) :
    (search idx q k).length = min idx.entries.length k ∧
    (search idx q k).Pairwise (fun p r => r.2 ≤ p.2) ∧
    (idx.entries = [] → search idx q k = []) ∧
    (idx.entries.length < k → (search idx q k).length = idx.entries.length) := by
  have hlen : (search idx q k).length = min idx.entries.length k := by
    simp only [search, List.length_take, length_sortDesc, List.length_map]
    exact Nat.min_comm _ _
  refine ⟨hlen, ?_, ?_, ?_⟩
  · exact List.Pairwise.sublist (List.take_sublist _ _) (pairwise_sortDesc _)
  · intro h
    simp [search, h, sortDesc]
  · intro h
    rw [hlen]
    omega

/-- Witness for C5 on the empty index with `k = 3`. -/
theorem claim_C5_witness :
    search ⟨[]⟩ [] 3 = [] ∧ (search ⟨[]⟩ [] 3).length = 0 := by
  refine ⟨(claim_C5 ⟨[]⟩ [] 3).2.2.1 rfl, ?_⟩
  have h := (claim_C5 ⟨[]⟩ [] 3).2.2.2 (by decide)
  simpa using h

/-- C10: every result returned by `retrieveRelevantChunks` projects a
document that is actually stored in the loaded index, its `source` is the
stored metadata's source when that is present and `''` when the metadata
object or its `source` field is absent, and the projection
`doc.metadata?.source || ''` computes exactly that string (it never yields a
missing value). -/
theorem claim_C10 (st : Storage) (q : String) (res : List RetrievalResult)
    (h : retrieveRelevantChunks st q = .ok res) :
    (∀ r ∈ res, ∃ d ∈ storedDocuments st,
      r.text = d.pageContent ∧ r.source = projSource d.metadata) ∧
    (∀ m : Option DocMeta, projSource m =
      match m with
      | some md => md.source.getD ""
      | none => "") := by
  constructor
  · cases st with
    | absent =>
      simp only [retrieveRelevantChunks, load, Except.ok.injEq] at h
      subst h
      intro r hr
      simp at hr
    | corrupt =>
      simp only [retrieveRelevantChunks, load, Except.ok.injEq] at h
      subst h
      intro r hr
      simp at hr
    | stored es =>
      simp only [retrieveRelevantChunks, load, Except.ok.injEq] at h
      subst h
      intro r hr
      obtain ⟨doc, hdoc, rfl⟩ := List.mem_map.mp hr
      obtain ⟨s, hs, rfl⟩ := List.mem_map.mp hdoc
      refine ⟨s.1.doc, ?_, rfl, rfl⟩
      simp only [storedDocuments, load]
      exact List.mem_map.mpr ⟨s.1, mem_search hs, rfl⟩
  · intro m
    match m with
    | none => rfl
    | some ⟨none⟩ => rfl
    | some ⟨some s⟩ =>
      simp only [projSource, Option.getD]
      by_cases hs : s = ""
      · rw [if_pos hs, hs]
      · rw [if_neg hs]

/-- Witness for C10 on a one-entry index. -/
theorem claim_C10_witness :
    ∃ d ∈ storedDocuments
        (.stored [⟨[1], ⟨"Paris is the capital", some ⟨some "geo.txt"⟩⟩⟩]),
      "Paris is the capital" = d.pageContent ∧ "geo.txt" = projSource d.metadata := by
  have h := (claim_C10
    (.stored [⟨[1], ⟨"Paris is the capital", some ⟨some "geo.txt"⟩⟩⟩]) "q"
    [⟨"Paris is the capital", "geo.txt"⟩] rfl).1
  exact h ⟨"Paris is the capital", "geo.txt"⟩ (by simp)

/-- C2: with no persisted index (load fails with `IndexNotFound`), the
ingestion path creates a fresh empty index, adds the new chunks to it, saves
and reports success, while the query path returns a successful empty result
for every query rather than failing. -/
theorem claim_C2 :
    (∀ q, retrieveRelevantChunks .absent q = .ok []) ∧
    (∀ chunks, embedAndStoreChunks .absent chunks =
      .ok (true, saveIndex (addDocuments (fromDocuments [] openAIEmbeddings)
        (chunksToDocs chunks) openAIEmbeddings))) ∧
    load .absent openAIEmbeddings = .failed .indexNotFound :=
  ⟨fun _ => rfl, fun _ => rfl, rfl⟩

/-- C3 counterexample: when the persisted index exists but is unreadable
(`load` fails with `IndexCorrupt`), the query does NOT fail: it returns the
successful empty result `.ok []`, exactly as in the `IndexNotFound` case. -/
theorem claim_C3_counterexample :
    load .corrupt openAIEmbeddings = .failed .indexCorrupt ∧
    retrieveRelevantChunks .corrupt "What is the capital?" = .ok [] :=
  ⟨rfl, rfl⟩

/-- C3 (amended): the bare `catch` in `retrieveRelevantChunks`
(`app.service.ts:113-115`) swallows every load failure indiscriminately: a
query against a corrupt index returns the same successful empty result as a
query with no index at all, and never surfaces an error — the query path does
NOT distinguish 'no index yet' from 'index unreadable/corrupt'. -/
theorem claim_C3 :
    (∀ q, retrieveRelevantChunks .corrupt q = .ok []) ∧
    (∀ q, retrieveRelevantChunks .corrupt q = retrieveRelevantChunks .absent q) ∧
    (∀ q e, retrieveRelevantChunks .corrupt q ≠ .error e) :=
  ⟨fun _ => rfl, fun _ => rfl, fun _ _ => Except.noConfusion⟩

/-- Witness for C3 at a concrete query and error value. -/
theorem claim_C3_witness :
    retrieveRelevantChunks .corrupt "q" = .ok [] ∧
    retrieveRelevantChunks .corrupt "q" ≠ .error SvcError.embeddingServiceError :=
  ⟨claim_C3.1 "q", claim_C3.2.2 "q" SvcError.embeddingServiceError⟩

/-- C6 (spec-modelled save/load): saving a non-empty index and loading it
back reconstructs the very same index, so the search results for any fixed
query vector and any `k` are identical (same entries, same order) to those of
the index before the save. -/
theorem claim_C6 (idx : VectorIndex) (_h : idx.entries ≠ [])
    (q : EmbeddingVector) (k : Nat) :
    load (saveIndex idx) openAIEmbeddings = .loaded idx ∧
    ∀ idx2, load (saveIndex idx) openAIEmbeddings = .loaded idx2 →
      search idx2 q k = search idx q k := by
  refine ⟨rfl, ?_⟩
  intro idx2 h2
  rw [show load (saveIndex idx) openAIEmbeddings = .loaded idx from rfl] at h2
  injection h2 with h3
  rw [h3]

/-- Witness for C6 on a one-entry index. -/
theorem claim_C6_witness :
    load (saveIndex ⟨[⟨[1], ⟨"AAAA", some ⟨some "doc1"⟩⟩⟩]⟩) openAIEmbeddings
      = .loaded ⟨[⟨[1], ⟨"AAAA", some ⟨some "doc1"⟩⟩⟩]⟩ :=
  (claim_C6 ⟨[⟨[1], ⟨"AAAA", some ⟨some "doc1"⟩⟩⟩]⟩ (by simp) [2] 1).1

/-! ## C8: both paths use the same embedder -/

theorem ingestResult_entries (st : Storage) (chunks : List Chunk) :
    entriesOfStorage (ingestResult st chunks) =
      entriesOfStorage st ++ (chunksToDocs chunks).map
        (fun d => ⟨openAIEmbeddings.embed d.pageContent, d⟩) := by
  cases st <;> rfl

theorem embed_length (E : Embedder) (s : String) : (E.embed s).length = E.dim := by
  rw [Embedder.embed, List.length_map, List.length_range]

/-- C8: the ingestion path and the query path construct the same embedding
model (`new OpenAIEmbeddings()` at `app.service.ts:87` and
`app.service.ts:109`); every query vector has that embedder's dimension;
ingestion preserves the invariant that every stored vector has that
dimension; and the HuggingFace embeddings object constructed by the
controller's `uploadFile` is never passed on — the upload flow stores via
`embedAndStoreChunks` and its own OpenAI embedder. -/
theorem claim_C8 :
    ingestionEmbedder = queryEmbedder ∧
    (∀ q, (queryEmbedder.embed q).length = queryEmbedder.dim) ∧
    (∀ st chunks, dimInvariant st → dimInvariant (ingestResult st chunks)) ∧
    (∀ st text source, uploadFile st text source =
      embedAndStoreChunks st (parseAndChunkFileChunks text source)) := by
  refine ⟨rfl, fun q => embed_length _ q, ?_, fun _ _ _ => rfl⟩
  intro st chunks hinv e he
  rw [ingestResult_entries] at he
  rcases List.mem_append.mp he with hmem | hmem
  · exact hinv e hmem
  · obtain ⟨d, hd, rfl⟩ := List.mem_map.mp hmem
    exact embed_length _ _

/-- Witness for C8: ingesting one chunk into absent storage yields a store
satisfying the dimension invariant. -/
theorem claim_C8_witness :
    dimInvariant (ingestResult .absent [⟨"a", "s"⟩]) :=
  claim_C8.2.2.1 .absent [⟨"a", "s"⟩] (by intro e he; simp [entriesOfStorage] at he)

/-! ## C9: concurrent ingestion -/

/-- A single ingestion call run to completion through the scheduler is
exactly `embedAndStoreChunks`. -/
theorem runSched_single_eq_ingest (st : Storage) (ch chB : List Chunk) :
    (runSched ch chB [Tid.A, Tid.A] ⟨st, .start, .start⟩).storage
      = ingestResult st ch := by
  cases st <;> rfl

/-- Serialized execution (each call's load→add→save a critical section):
both callers' entries survive in the final persisted index. -/
theorem runSched_serial_preserves (chA chB : List Chunk) (st : Storage) :
    entriesOfStorage (runSched chA chB [Tid.A, Tid.A, Tid.B, Tid.B]
        ⟨st, .start, .start⟩).storage
      = entriesOfStorage st
        ++ (chunksToDocs chA).map (fun d => ⟨openAIEmbeddings.embed d.pageContent, d⟩)
        ++ (chunksToDocs chB).map (fun d => ⟨openAIEmbeddings.embed d.pageContent, d⟩) := by
  cases st <;> rfl

/-- Interleaved execution (both calls load before either saves — possible
since the code takes no lock): caller `A`'s additions are lost entirely
(last save wins). -/
theorem runSched_interleaved_loses (chA chB : List Chunk) (st : Storage) :
    entriesOfStorage (runSched chA chB [Tid.A, Tid.B, Tid.A, Tid.B]
        ⟨st, .start, .start⟩).storage
      = entriesOfStorage st
        ++ (chunksToDocs chB).map (fun d => ⟨openAIEmbeddings.embed d.pageContent, d⟩) := by
  cases st <;> rfl

/-- C9 (code bug): `embedAndStoreChunks` performs load→add→save with no
mutual exclusion, so under the interleaved schedule
`load_A, load_B, save_A, save_B` on two concurrent uploads the final
persisted index contains none of caller `A`'s chunks (its `"docA"` document
is lost), whereas the serialized schedule keeps both callers' documents. -/
theorem claim_C9_bug :
    ((entriesOfStorage (runSched chunksDocA chunksDocB [Tid.A, Tid.B, Tid.A, Tid.B]
        ⟨Storage.absent, .start, .start⟩).storage).any
      (fun e => e.doc.pageContent == "docA")) = false ∧
    ((entriesOfStorage (runSched chunksDocA chunksDocB [Tid.A, Tid.B, Tid.A, Tid.B]
        ⟨Storage.absent, .start, .start⟩).storage).any
      (fun e => e.doc.pageContent == "docB")) = true ∧
    ((entriesOfStorage (runSched chunksDocA chunksDocB [Tid.A, Tid.A, Tid.B, Tid.B]
        ⟨Storage.absent, .start, .start⟩).storage).any
      (fun e => e.doc.pageContent == "docA")) = true ∧
    ((entriesOfStorage (runSched chunksDocA chunksDocB [Tid.A, Tid.A, Tid.B, Tid.B]
        ⟨Storage.absent, .start, .start⟩).storage).any
      (fun e => e.doc.pageContent == "docB")) = true := by
  refine ⟨?_, ?_, ?_, ?_⟩ <;> decide

/-! ## C7: prompt construction -/

theorem containsStr_trans {a b c : String} (h1 : containsStr a b)
    (h2 : containsStr b c) : containsStr a c := by
  obtain ⟨p1, q1, e1⟩ := h1
  obtain ⟨p2, q2, e2⟩ := h2
  exact ⟨p1 ++ p2, q2 ++ q1, by rw [e1, e2]; simp [List.append_assoc]⟩

theorem containsStr_appendLeft {b s : String} (a : String) (h : containsStr b s) :
    containsStr (a ++ b) s := by
  obtain ⟨p, q, e⟩ := h
  exact ⟨a.data ++ p, q, by rw [strData_append, e]; simp [List.append_assoc]⟩

theorem containsStr_appendRight {b s : String} (a : String) (h : containsStr b s) :
    containsStr (b ++ a) s := by
  obtain ⟨p, q, e⟩ := h
  exact ⟨p, q ++ a.data, by rw [strData_append, e]; simp [List.append_assoc]⟩

theorem containsStr_joinSep (sep : String) {L : List String} {x : String}
    (h : x ∈ L) : containsStr (joinSep sep L) x := by
  induction L with
  | nil => simp at h
  | cons y rest ih =>
    cases rest with
    | nil =>
      obtain rfl : x = y := by simpa using h
      exact ⟨[], [], by simp [joinSep]⟩
    | cons z rest2 =>
      rcases List.mem_cons.mp h with rfl | h2
      · refine ⟨[], sep.data ++ (joinSep sep (z :: rest2)).data, ?_⟩
        show ((x ++ sep) ++ joinSep sep (z :: rest2)).data = _
        rw [strData_append, strData_append]
        simp [List.append_assoc]
      · show containsStr ((y ++ sep) ++ joinSep sep (z :: rest2)) x
        exact containsStr_appendLeft _ (ih h2)

theorem renderContext_mem_renderContexts :
    ∀ (l : List RetrievalResult) (j i : Nat) (h : i < l.length),
      renderContext (j + i) (l.get ⟨i, h⟩) ∈ renderContexts j l := by
  intro l
  induction l with
  | nil =>
    intro j i h
    simp at h
  | cons c cs ih =>
    intro j i h
    cases i with
    | zero => simp [renderContexts]
    | succ i2 =>
      have h2 : i2 < cs.length := by simpa using Nat.lt_of_succ_lt_succ h
      have hmem := ih (j + 1) i2 h2
      have harith : j + (i2 + 1) = (j + 1) + i2 := by omega
      simp only [renderContexts, List.get, harith]
      exact List.mem_cons_of_mem _ hmem

theorem renderContext_contains_header (i : Nat) (ctx : RetrievalResult) :
    containsStr (renderContext i ctx)
      ("Source [" ++ toString (i + 1) ++ "] (" ++ ctx.source ++ "):") := by
  have hdata : ("):\n" : String).data = ("):" : String).data ++ ("\n" : String).data := rfl
  refine ⟨[], ("\n" ++ ctx.text).data, ?_⟩
  simp [renderContext, strData_append, hdata, List.append_assoc]

theorem renderContext_contains_text (i : Nat) (ctx : RetrievalResult) :
    containsStr (renderContext i ctx) ctx.text := by
  refine ⟨("Source [" ++ toString (i + 1) ++ "] (" ++ ctx.source ++ "):\n").data, [], ?_⟩
  simp [renderContext, strData_append, List.append_assoc]

theorem buildFullPrompt_contains {contexts : List RetrievalResult} {x : String}
    (h : containsStr (joinSep "\n\n" (renderContexts 0 contexts)) x)
    (prompt : String) : containsStr (buildFullPrompt prompt contexts) x :=
  containsStr_appendRight _ (containsStr_appendRight _ (containsStr_appendLeft _ h))

/-- C7: for every question, context list and position `i`, the prompt built
by `generateAnswerWithContext` contains the literal header
`Source [i+1] (source):` of the `i`-th context and the context's full text,
it ends with `\n\nQuestion: ` followed by the question, and the returned
`AugmentedAnswer.contexts` equals the input context list unchanged. -/
theorem claim_C7 (question : String) (contexts : List RetrievalResult)
    (modelInvoke : String → String) (i : Nat) (h : i < contexts.length) :
    containsStr (buildFullPrompt question contexts)
      ("Source [" ++ toString (i + 1) ++ "] (" ++ (contexts.get ⟨i, h⟩).source ++ "):") ∧
    containsStr (buildFullPrompt question contexts) (contexts.get ⟨i, h⟩).text ∧
    (∃ pre : String, buildFullPrompt question contexts =
      pre ++ ("\n\nQuestion: " ++ question)) ∧
    (generateAnswerWithContext modelInvoke question contexts).contexts = contexts := by
  have hmem : renderContext i (contexts.get ⟨i, h⟩) ∈ renderContexts 0 contexts := by
    have hm := renderContext_mem_renderContexts contexts 0 i h
    simpa using hm
  have hjoin := containsStr_joinSep "\n\n" hmem
  refine ⟨?_, ?_, ?_, rfl⟩
  · exact buildFullPrompt_contains
      (containsStr_trans hjoin (renderContext_contains_header i _)) question
  · exact buildFullPrompt_contains
      (containsStr_trans hjoin (renderContext_contains_text i _)) question
  · refine ⟨"You are an AI assistant. Use the following context to answer the user's question. Cite the sources in your answer.\n\nContext:\n"
      ++ joinSep "\n\n" (renderContexts 0 contexts), ?_⟩
    apply strEq_of_data
    simp [buildFullPrompt, strData_append, List.append_assoc]

/-- Witness for C7 at the spec §8 scenario: one context
`{text: "Paris is the capital", source: "geo.txt"}` and the question
`"What is the capital?"`. -/
theorem claim_C7_witness :
    containsStr
      (buildFullPrompt "What is the capital?" [⟨"Paris is the capital", "geo.txt"⟩])
      "Source [1] (geo.txt):" ∧
    containsStr
      (buildFullPrompt "What is the capital?" [⟨"Paris is the capital", "geo.txt"⟩])
      "Paris is the capital" ∧
    (generateAnswerWithContext (fun _ => "answer") "What is the capital?"
      [⟨"Paris is the capital", "geo.txt"⟩]).contexts
      = [⟨"Paris is the capital", "geo.txt"⟩] := by
  have h := claim_C7 "What is the capital?" [⟨"Paris is the capital", "geo.txt"⟩]
    (fun _ => "answer") 0 (by decide)
  exact ⟨h.1, h.2.1, h.2.2.2⟩


